import Mathlib

/-!
Shallow embedding of the RMI learned-index compiler core
(src/optimizer.rs and src/models/mod.rs) together with proofs of the
specification's claims about it.

Modelling conventions used throughout:
- u64 and usize are modelled as Nat (sizes here are byte counts and
  indices; no arithmetic in the modelled code wraps);
- f64 quantities (average_log2_error, scale factors) are modelled as
  Rat, with exact comparison; the size ratios of the narrowing loop are
  modelled as f64 values with their inf and NaN special cases (finite
  ratios exact); f64 parameter payloads are carried as their 64-bit
  pattern (f64::to_bits), which is exactly what the serializer writes;
- a Rust panic (assert!, unwrap, Vec::remove / index out of bounds,
  panic!) is modelled by returning none from an Option-valued function;
- rayon parallel iteration (measure_rmis) preserves input order via
  collect, so it is modelled as List.map.
-/

namespace RMI

/-- RMIStatistics from src/optimizer.rs (lines 117-124): summary of one
trained RMI configuration. -/
structure RMIStatistics where
  models : String
  branching_factor : Nat
  average_log2_error : Rat
  max_log2_error : Rat
  size : Nat
deriving DecidableEq, Inhabited, Repr

/-- RMIStatistics::dominated_by (optimizer.rs lines 137-150), translated
early-return by early-return. -/
def dominated_by (self other : RMIStatistics) : Bool :=
  if self.size < other.size then false
  else if self.average_log2_error < other.average_log2_error then false
  else if self.size = other.size ∧ self.average_log2_error ≤ other.average_log2_error then
    false
  else if self.size ≤ other.size ∧ self.average_log2_error = other.average_log2_error then
    false
  else true

/-- RMIStatistics::has_config (optimizer.rs lines 152-154). -/
def has_config (self : RMIStatistics) (models : String) (branching_factor : Nat) : Bool :=
  self.models == models && self.branching_factor == branching_factor

/-- pareto_front (optimizer.rs lines 23-36): keep each result that is not
dominated by any result in the input. -/
def pareto_front (results : List RMIStatistics) : List RMIStatistics :=
  results.filter (fun result => ! results.any (fun v => dominated_by result v))

/-- The specification's dominance formula (section 4.5, Phase 2):
x is dominated by y iff y.size ≤ x.size, y.avg ≤ x.avg, and one of the
two inequalities is strict. -/
def specDominated (x y : RMIStatistics) : Prop :=
  y.size ≤ x.size ∧ y.average_log2_error ≤ x.average_log2_error ∧
    (y.size < x.size ∨ y.average_log2_error < x.average_log2_error)

/-- The first concrete statistic of spec Scenario E: size 100, average
log2 error 0.5. -/
def scenarioE1 : RMIStatistics := ⟨"", 0, Rat.divInt 1 2, 0, 100⟩

/-- The second concrete statistic of spec Scenario E: size 80, average
log2 error 0.4. -/
def scenarioE2 : RMIStatistics := ⟨"", 0, Rat.divInt 2 5, 0, 80⟩

/-- Comparator of the sort in narrow_front (optimizer.rs lines 45-47):
ascending by size. -/
def sizeLe (a b : RMIStatistics) : Prop := a.size ≤ b.size

instance : DecidableRel sizeLe := fun a b => inferInstanceAs (Decidable (a.size ≤ b.size))

instance : IsTotal RMIStatistics sizeLe := ⟨fun a b => Nat.le_total a.size b.size⟩

instance : IsTrans RMIStatistics sizeLe := ⟨fun _ _ _ hab hbc => Nat.le_trans hab hbc⟩

/-- Comparator of the final sort in find_pareto_efficient_configs
(optimizer.rs lines 204-206): ascending by average_log2_error. -/
def avgLe (a b : RMIStatistics) : Prop :=
  a.average_log2_error ≤ b.average_log2_error

instance : DecidableRel avgLe := fun a b =>
  inferInstanceAs (Decidable (a.average_log2_error ≤ b.average_log2_error))

instance : IsTotal RMIStatistics avgLe := ⟨fun _ _ => le_total _ _⟩

instance : IsTrans RMIStatistics avgLe := ⟨fun _ _ _ hab hbc => le_trans hab hbc⟩

/-- An f64 value arising from dividing two non-negative integers:
finite, positive infinity (n/0 with n > 0), or NaN (0/0). Finite values
are carried as exact rationals. -/
inductive F64 where
  | nan
  | inf
  | val (q : Rat)
deriving DecidableEq

/-- f64 division of two u64-cast values, with the IEEE special cases:
0/0 is NaN and n/0 (n > 0) is positive infinity. -/
def divF64 (n d : Nat) : F64 :=
  if d = 0 then (if n = 0 then .nan else .inf) else .val (Rat.divInt n d)

/-- The comparison performed by the min_by closure of narrow_front,
v1.partial_cmp(v2).unwrap(): some true when v1 sorts at or before v2,
some false when strictly after, none when either side is NaN (where the
unwrap panics). -/
def cmpLe : F64 → F64 → Option Bool
  | .nan, _ => none
  | _, .nan => none
  | .inf, .inf => some true
  | .inf, .val _ => some false
  | .val _, .inf => some true
  | .val a, .val b => some (decide (a ≤ b))

/-- Iterator::min_by over an indexed list of f64 values: the index and
value of the first minimal element. none models a panic: an empty list
(the unwrap on min_by's None) or any comparison touching a NaN. A
singleton performs no comparison, exactly as min_by does. -/
def minWithIdx : List F64 → Option (Nat × F64)
  | [] => none
  | [x] => some (0, x)
  | x :: y :: rest =>
    match minWithIdx (y :: rest) with
    | none => none
    | some (j, v) =>
      match cmpLe x v with
      | none => none
      | some b => if b then some (0, x) else some (j + 1, v)

/-- The successive size ratios of narrow_front (optimizer.rs lines 52-56):
for each adjacent pair, size of the second divided by size of the first,
as f64 values (finite ratios exact; zero denominators give inf or NaN). -/
def gapList (tmp : List RMIStatistics) : List F64 :=
  (tmp.zip tmp.tail).map (fun p => divF64 p.2.size p.1.size)

/-- The while loop of narrow_front (optimizer.rs lines 50-65), with fuel
for structural termination (the loop removes one element per iteration,
so fuel = initial length always suffices). Each iteration finds the first
adjacent pair of minimal size ratio and removes the element at its lower
index in BOTH branches of the error comparison, exactly as the source
does. -/
def shrinkAux (target : Nat) : Nat → List RMIStatistics → Option (List RMIStatistics)
  | 0, tmp => if tmp.length ≤ target then some tmp else none
  | fuel + 1, tmp =>
    if tmp.length ≤ target then some tmp
    else
      match minWithIdx (gapList tmp) with
      | none => none
      | some (i, _) =>
        let err1 := (tmp.getD i default).average_log2_error
        let err2 := (tmp.getD (i + 1) default).average_log2_error
        if err1 > err2 then shrinkAux target fuel (tmp.eraseIdx i)
        else shrinkAux target fuel (tmp.eraseIdx i)

/-- narrow_front (optimizer.rs lines 38-72). The assert of line 39 and
the unwraps inside the loop are modelled as none. -/
def narrow_front (results : List RMIStatistics) (desired_size : Nat) :
    Option (List RMIStatistics) :=
  if desired_size < 2 then none
  else if results.length ≤ desired_size then some results
  else
    match List.insertionSort sizeLe results with
    | [] => none
    | best_mod :: rest =>
      (shrinkAux (desired_size - 1) rest.length rest).map (fun t => best_mod :: t)

/-- TOP_ONLY_LAYERS (optimizer.rs line 11). -/
def TOP_ONLY_LAYERS : List String := ["radix", "radix18", "radix22", "robust_linear"]

/-- ANYWHERE_LAYERS (optimizer.rs line 12). -/
def ANYWHERE_LAYERS : List String := ["linear", "cubic", "linear_spline"]

/-- get_branching_factors (optimizer.rs lines 15-21): 2^i for i in 6..25. -/
def get_branching_factors : List Nat := (List.range' 6 19).map (fun i => 2 ^ i)

/-- Iterator::step_by(n): every n-th element starting at the first. -/
def stepBy (n : Nat) (l : List Nat) : List Nat :=
  (l.enum.filter (fun p => p.1 % n = 0)).map (fun p => p.2)

/-- first_phase_configs (optimizer.rs lines 74-89): every (top, bottom)
pair over the layer lists, at every fifth branching factor. -/
def first_phase_configs : List (String × Nat) :=
  (TOP_ONLY_LAYERS ++ ANYWHERE_LAYERS).flatMap (fun top_model =>
    ANYWHERE_LAYERS.flatMap (fun bottom_model =>
      (stepBy 5 get_branching_factors).map (fun branching_factor =>
        (top_model ++ "," ++ bottom_model, branching_factor))))

/-- Byte-lexicographic strict order on strings (the Ord used by Rust's
BTreeSet of String), computed on the character lists. -/
def charListLtB : List Char → List Char → Bool
  | [], [] => false
  | [], _ :: _ => true
  | _ :: _, [] => false
  | x :: xs, y :: ys =>
    if x.toNat < y.toNat then true
    else if y.toNat < x.toNat then false
    else charListLtB xs ys

/-- Insertion into a sorted duplicate-free list: the effect of
BTreeSet::insert followed by ordered iteration. -/
def btreeInsert (s : String) : List String → List String
  | [] => [s]
  | x :: xs =>
    if s = x then x :: xs
    else if charListLtB s.data x.data then s :: x :: xs
    else x :: btreeInsert s xs

/-- The sorted set of strings collected by the BTreeSet loop in
second_phase_configs (optimizer.rs lines 92-99). -/
def btreeSetOfList (l : List String) : List String :=
  l.foldl (fun acc s => btreeInsert s acc) []

/-- second_phase_configs (optimizer.rs lines 91-115): every qualifying
model string (those on the phase-1 Pareto front) at every branching
factor not already measured in phase 1. -/
def second_phase_configs (first_phase : List RMIStatistics) : List (String × Nat) :=
  let qualifying_model_configs :=
    btreeSetOfList ((pareto_front first_phase).map (fun r => r.models))
  qualifying_model_configs.flatMap (fun model =>
    get_branching_factors.filterMap (fun branching_factor =>
      if first_phase.any (fun v => has_config v model branching_factor) then none
      else some (model, branching_factor)))

/-- The final sort of find_pareto_efficient_configs (optimizer.rs lines
204-206): ascending by average_log2_error. -/
def sort_by_avg (l : List RMIStatistics) : List RMIStatistics :=
  List.insertionSort avgLe l

/-- find_pareto_efficient_configs (optimizer.rs lines 194-209).
measure_rmis calls train::train and codegen::rmi_size, which are outside
the provided sources; the per-configuration measurement is therefore
abstracted as an arbitrary function from (models string, branching
factor) to RMIStatistics, applied in input order exactly as the
rayon collect does. Note line 202 of the source: the final front is
computed over second_phase_results alone. -/
def find_pareto_efficient_configs (measure : String × Nat → RMIStatistics)
    (restrict : Nat) : Option (List RMIStatistics) :=
  let first_phase_results := first_phase_configs.map measure
  let next_configs := second_phase_configs first_phase_results
  let second_phase_results := next_configs.map measure
  (narrow_front (pareto_front second_phase_results) restrict).map sort_by_avg

/-- The final selection as the specification words it (section 4.5):
the final Pareto front is computed over P2, the phase-1 results together
with the phase-2 trainings appended to them, then narrowed and sorted. -/
def final_selection_over_P2 (measure : String × Nat → RMIStatistics)
    (restrict : Nat) : Option (List RMIStatistics) :=
  let first_phase_results := first_phase_configs.map measure
  let next_configs := second_phase_configs first_phase_results
  let p2 := first_phase_results ++ next_configs.map measure
  (narrow_front (pareto_front p2) restrict).map sort_by_avg

/-- The five entries of spec Scenario F: sizes 10..160, decreasing
errors. -/
def scenarioF : List RMIStatistics :=
  [⟨"a", 0, 5, 0, 10⟩, ⟨"b", 0, 4, 0, 20⟩, ⟨"c", 0, 3, 0, 40⟩,
   ⟨"d", 0, 2, 0, 80⟩, ⟨"e", 0, 1, 0, 160⟩]

/-- Five entries of which the three smallest have size 0: after the
size sort and the anchor removal, two adjacent zero sizes remain, whose
ratio is 0/0 = NaN. -/
def zeroSizeEntries : List RMIStatistics :=
  [⟨"a", 0, 5, 0, 0⟩, ⟨"b", 0, 4, 0, 0⟩, ⟨"c", 0, 3, 0, 0⟩,
   ⟨"d", 0, 2, 0, 7⟩, ⟨"e", 0, 1, 0, 9⟩]

/-- A constant measurement outcome of positive size, for witnesses. -/
def constStat : RMIStatistics := ⟨"", 0, 0, 0, 1⟩

/-- Concrete measurement outcome used to separate the code's final
selection from the spec's: the phase-1 configuration (linear,linear, 64)
measures as (size 1, error 1) and every other configuration as (size 10,
error 10). -/
def exMeasure (c : String × Nat) : RMIStatistics :=
  if c.1 = "linear,linear" ∧ c.2 = 64 then ⟨c.1, c.2, 1, 0, 1⟩
  else ⟨c.1, c.2, 10, 0, 10⟩

/-- Rust numeric cast of an f64 to u64 (as u64): truncation toward zero,
saturating at 0 for negative values. On the non-negative values produced
in predict_to_int this is the floor. -/
def asU64 (q : Rat) : Nat := (⌊q⌋).toNat

/-- Default Model::predict_to_int of the Model capability
(models/mod.rs lines 527-529): f64::max(0.0, predict_to_float(inp).floor())
as u64. predict_to_float is abstracted as a parameter because the
concrete model zoo is outside the provided sources; any model using the
default predict_to_int instantiates it. -/
def predict_to_int (predict_to_float : Rat → Rat) (inp : Rat) : Nat :=
  asU64 (max 0 ((⌊predict_to_float inp⌋ : Int) : Rat))

/-- ModelData (models/mod.rs lines 100-107): the four key/position
variants. Integer keys and positions are u64 (Nat); float ones are f64
(Rat). -/
inductive ModelData where
  | IntKeyToIntPos (data : List (Nat × Nat))
  | FloatKeyToIntPos (data : List (Rat × Nat))
  | IntKeyToFloatPos (data : List (Nat × Rat))
  | FloatKeyToFloatPos (data : List (Rat × Rat))
deriving DecidableEq

/-- ModelData::len (models/mod.rs lines 226-233). -/
def ModelData.len : ModelData → Nat
  | .IntKeyToIntPos data => data.length
  | .FloatKeyToIntPos data => data.length
  | .IntKeyToFloatPos data => data.length
  | .FloatKeyToFloatPos data => data.length

/-- ModelData::get (models/mod.rs lines 235-242): the element at idx as
an (f64, f64) pair; an out-of-range index panics (none). -/
def ModelData.get : ModelData → Nat → Option (Rat × Rat)
  | .FloatKeyToFloatPos data, idx => data[idx]?
  | .FloatKeyToIntPos data, idx => (data[idx]?).map (fun p => (p.1, (p.2 : Rat)))
  | .IntKeyToFloatPos data, idx => (data[idx]?).map (fun p => ((p.1 : Rat), p.2))
  | .IntKeyToIntPos data, idx => (data[idx]?).map (fun p => ((p.1 : Rat), (p.2 : Rat)))

/-- The key k_i of entry i, as a float, per variant. -/
def ModelData.keyAt : ModelData → Nat → Option Rat
  | .FloatKeyToFloatPos data, idx => (data[idx]?).map (fun p => p.1)
  | .FloatKeyToIntPos data, idx => (data[idx]?).map (fun p => p.1)
  | .IntKeyToFloatPos data, idx => (data[idx]?).map (fun p => (p.1 : Rat))
  | .IntKeyToIntPos data, idx => (data[idx]?).map (fun p => (p.1 : Rat))

/-- The position p_i of entry i, as a float, per variant. -/
def ModelData.posAt : ModelData → Nat → Option Rat
  | .FloatKeyToFloatPos data, idx => (data[idx]?).map (fun p => p.2)
  | .FloatKeyToIntPos data, idx => (data[idx]?).map (fun p => (p.2 : Rat))
  | .IntKeyToFloatPos data, idx => (data[idx]?).map (fun p => p.2)
  | .IntKeyToIntPos data, idx => (data[idx]?).map (fun p => (p.2 : Rat))

/-- ModelData::as_int_int (models/mod.rs lines 217-224): the underlying
(u64, u64) slice; the three float-bearing variants panic (none). -/
def ModelData.as_int_int : ModelData → Option (List (Nat × Nat))
  | .FloatKeyToFloatPos _ => none
  | .FloatKeyToIntPos _ => none
  | .IntKeyToFloatPos _ => none
  | .IntKeyToIntPos data => some data

/-- ModelDataWrapper (models/mod.rs lines 42-46): a reference to the
data plus a scaling factor. -/
structure ModelDataWrapper where
  model_data : ModelData
  scaling_factor : Rat

/-- ModelDataWrapper::new (models/mod.rs lines 49-54): scale defaults
to 1.0. -/
def ModelDataWrapper.new (md : ModelData) : ModelDataWrapper :=
  { model_data := md, scaling_factor := 1 }

/-- ModelDataWrapper::set_scale (models/mod.rs lines 56-58). -/
def ModelDataWrapper.set_scale (w : ModelDataWrapper) (scale : Rat) : ModelDataWrapper :=
  { w with scaling_factor := scale }

/-- ModelDataWrapper::len (models/mod.rs lines 60-62). -/
def ModelDataWrapper.len (w : ModelDataWrapper) : Nat := w.model_data.len

/-- ModelDataWrapper::get (models/mod.rs lines 64-67): the underlying
pair with the position multiplied by the scaling factor. -/
def ModelDataWrapper.get (w : ModelDataWrapper) (idx : Nat) : Option (Rat × Rat) :=
  (w.model_data.get idx).map (fun p => (p.1, p.2 * w.scaling_factor))

/-- The iterator state produced by define_iterator_type
(models/mod.rs lines 126-150), instantiated for int/int iteration. -/
structure ModelDataIIIterator where
  data : ModelData
  idx : Nat
  scale : Rat
  stop : Nat

/-- Iterator construction (models/mod.rs lines 136-138). -/
def ModelDataIIIterator.new (data : ModelData) : ModelDataIIIterator :=
  { data := data, idx := 0, scale := 1, stop := data.len }

/-- Iterator::bound (models/mod.rs lines 144-149): asserts start < stop
and stop ≤ len, then moves the cursor; assertion failure is none. -/
def ModelDataIIIterator.bound (it : ModelDataIIIterator) (start stop : Nat) :
    Option ModelDataIIIterator :=
  if start < stop then
    if stop ≤ it.data.len then some { it with idx := start, stop := stop }
    else none
  else none

/-- Little-endian byte expansion: w bytes of v, least significant first.
This is exactly what write_u16/u32/u64<LittleEndian> emit for an
in-range value. -/
def leBytes : Nat → Nat → List Nat
  | 0, _ => []
  | w + 1, v => v % 256 :: leBytes w (v / 256)

/-- Little-endian byte recomposition (the read-back direction of the
round trip). -/
def fromLeBytes : List Nat → Nat
  | [] => 0
  | b :: bs => b + 256 * fromLeBytes bs

/-- ModelParam (models/mod.rs lines 301-309). Float payloads are carried
as their f64::to_bits u64 pattern, which is the exact bit string the
serializer writes. -/
inductive ModelParam where
  | Int (v : Nat)
  | Float (bits : Nat)
  | ShortArray (a : List Nat)
  | IntArray (a : List Nat)
  | Int32Array (a : List Nat)
  | FloatArray (a : List Nat)
deriving DecidableEq

/-- ModelParam::size (models/mod.rs lines 311-322): size in bytes. -/
def ModelParam.size : ModelParam → Nat
  | .Int _ => 8
  | .Float _ => 8
  | .ShortArray a => 2 * a.length
  | .IntArray a => 8 * a.length
  | .Int32Array a => 4 * a.length
  | .FloatArray a => 8 * a.length

/-- ModelParam::write_to (models/mod.rs lines 405-443): the emitted byte
stream, little-endian, arrays as concatenated elements. Writing into a
byte vector cannot fail, so the io::Result wrapper is dropped. -/
def ModelParam.write_to : ModelParam → List Nat
  | .Int v => leBytes 8 v
  | .Float bits => leBytes 8 bits
  | .ShortArray a => (a.map (leBytes 2)).flatten
  | .IntArray a => (a.map (leBytes 8)).flatten
  | .Int32Array a => (a.map (leBytes 4)).flatten
  | .FloatArray a => (a.map (leBytes 8)).flatten

/-- The per-element width of each parameter kind, as stated in spec
section 4.4. -/
def ModelParam.elemWidth : ModelParam → Nat
  | .Int _ => 8
  | .Float _ => 8
  | .ShortArray _ => 2
  | .IntArray _ => 8
  | .Int32Array _ => 4
  | .FloatArray _ => 8

/-- The numeric values held by a parameter, in order. -/
def ModelParam.values : ModelParam → List Nat
  | .Int v => [v]
  | .Float bits => [bits]
  | .ShortArray a => a
  | .IntArray a => a
  | .Int32Array a => a
  | .FloatArray a => a

/-- Fuel-driven chunked decoder: splits a byte stream into w-byte groups
and recomposes each group little-endian. -/
def decodeChunksAux (w : Nat) : Nat → List Nat → List Nat
  | 0, _ => []
  | _ + 1, [] => []
  | fuel + 1, b :: rest =>
    fromLeBytes (b :: rest.take (w - 1)) :: decodeChunksAux w fuel (rest.drop (w - 1))

/-- Reading a byte stream back by w-byte fields. -/
def decodeChunks (w : Nat) (bs : List Nat) : List Nat :=
  decodeChunksAux w bs.length bs

lemma dominated_by_iff (x y : RMIStatistics) :
    dominated_by x y = true ↔ specDominated x y := by
  unfold dominated_by specDominated
  split_ifs with h1 h2 h3 h4
  · simp only [false_iff]
    rintro ⟨hs, -, -⟩
    omega
  · simp only [false_iff]
    rintro ⟨-, ha, -⟩
    exact absurd ha (not_le.mpr h2)
  · simp only [false_iff]
    rintro ⟨hs, ha, hstrict⟩
    rcases hstrict with hlt | hlt
    · omega
    · exact absurd (lt_of_lt_of_le hlt h3.2) (lt_irrefl _)
  · simp only [false_iff]
    rintro ⟨hs, ha, hstrict⟩
    rcases hstrict with hlt | hlt
    · omega
    · rw [h4.2] at hlt
      exact absurd hlt (lt_irrefl _)
  · simp only [true_iff]
    refine ⟨not_lt.mp h1, not_lt.mp h2, ?_⟩
    rcases Nat.lt_or_ge y.size x.size with hlt | hge
    · exact Or.inl hlt
    · have hsz : x.size = y.size := le_antisymm hge (not_lt.mp h1)
      exact Or.inr (not_le.mp (fun hle => h3 ⟨hsz, hle⟩))

/-- Membership characterisation of pareto_front: r is kept iff it occurs
in the input and no input element dominates it. -/
lemma mem_pareto_front (S : List RMIStatistics) (r : RMIStatistics) :
    r ∈ pareto_front S ↔ r ∈ S ∧ ∀ v ∈ S, ¬ specDominated r v := by
  unfold pareto_front
  rw [List.mem_filter]
  constructor
  · rintro ⟨hmem, hpred⟩
    refine ⟨hmem, fun v hv hdom => ?_⟩
    simp only [Bool.not_eq_true', List.any_eq_false] at hpred
    exact absurd ((dominated_by_iff r v).mpr hdom) (by simpa using hpred v hv)
  · rintro ⟨hmem, hnone⟩
    refine ⟨hmem, ?_⟩
    simp only [Bool.not_eq_true', List.any_eq_false]
    intro v hv hdom
    exact hnone v hv ((dominated_by_iff r v).mp hdom)

/-- C4: dominated_by agrees with the spec's dominance formula, and on
Scenario E's pair pareto_front keeps exactly the non-dominated entry. -/
theorem c4_dominance_and_front :
    (∀ x y : RMIStatistics, dominated_by x y = true ↔ specDominated x y)
    ∧ (∀ (S : List RMIStatistics) (r : RMIStatistics),
        r ∈ pareto_front S ↔ r ∈ S ∧ ∀ v ∈ S, ¬ specDominated r v)
    ∧ pareto_front [scenarioE1, scenarioE2] = [scenarioE2] := by
  refine ⟨dominated_by_iff, mem_pareto_front, ?_⟩
  decide

lemma minWithIdx_lt_length :
    ∀ (l : List F64) (i : Nat) (v : F64), minWithIdx l = some (i, v) → i < l.length := by
  intro l
  induction l with
  | nil => intro i v h; simp [minWithIdx] at h
  | cons x xs ih =>
    intro i v h
    cases xs with
    | nil =>
      simp only [minWithIdx] at h
      cases h
      simp
    | cons y rest =>
      unfold minWithIdx at h
      cases hm : minWithIdx (y :: rest) with
      | none => rw [hm] at h; simp at h
      | some p =>
        obtain ⟨j, w⟩ := p
        rw [hm] at h
        dsimp only at h
        cases hc : cmpLe x w with
        | none => rw [hc] at h; simp at h
        | some b =>
          rw [hc] at h
          dsimp only at h
          cases b with
          | true =>
            rw [if_pos rfl] at h
            cases h
            simp
          | false =>
            rw [if_neg Bool.false_ne_true] at h
            cases h
            have := ih j _ hm
            simp only [List.length_cons] at this ⊢
            omega

lemma minWithIdx_all_val :
    ∀ (l : List F64), l ≠ [] → (∀ x ∈ l, ∃ q, x = F64.val q) →
      ∃ i q, minWithIdx l = some (i, F64.val q) := by
  intro l
  induction l with
  | nil => intro h _; exact absurd rfl h
  | cons x xs ih =>
    intro _ hall
    obtain ⟨qx, rfl⟩ := hall x (List.mem_cons_self x xs)
    cases xs with
    | nil => exact ⟨0, qx, rfl⟩
    | cons y rest =>
      obtain ⟨j, qv, hm⟩ :=
        ih (by simp) (fun z hz => hall z (List.mem_cons_of_mem _ hz))
      by_cases hle : qx ≤ qv
      · refine ⟨0, qx, ?_⟩
        unfold minWithIdx
        rw [hm]
        dsimp only [cmpLe]
        rw [if_pos (decide_eq_true hle)]
      · refine ⟨j + 1, qv, ?_⟩
        unfold minWithIdx
        rw [hm]
        dsimp only [cmpLe]
        rw [if_neg (fun hc => hle (of_decide_eq_true hc))]

lemma gapList_length (tmp : List RMIStatistics) :
    (gapList tmp).length = tmp.length - 1 := by
  unfold gapList
  rw [List.length_map, List.length_zip, List.length_tail]
  omega

/-- With strictly positive sizes every gap ratio is a finite value, so
the minimum search never meets a NaN. -/
lemma gapList_all_val (tmp : List RMIStatistics) (hpos : ∀ x ∈ tmp, 0 < x.size) :
    ∀ r ∈ gapList tmp, ∃ q, r = F64.val q := by
  intro r hr
  obtain ⟨p, hp, rfl⟩ := List.mem_map.mp hr
  obtain ⟨a, b⟩ := p
  have ha : a ∈ tmp := (List.of_mem_zip hp).1
  have hasz : 0 < a.size := hpos a ha
  dsimp only
  unfold divF64
  rw [if_neg (by omega : ¬ a.size = 0)]
  exact ⟨_, rfl⟩

lemma shrinkAux_some (target : Nat) (htgt : 1 ≤ target) :
    ∀ (fuel : Nat) (tmp : List RMIStatistics), tmp.length ≤ fuel →
      (∀ x ∈ tmp, 0 < x.size) →
      ∃ t, shrinkAux target fuel tmp = some t ∧ t.length = min tmp.length target := by
  intro fuel
  induction fuel with
  | zero =>
    intro tmp hlen _
    have h0 : tmp.length = 0 := Nat.le_zero.mp hlen
    refine ⟨tmp, ?_, by omega⟩
    unfold shrinkAux
    rw [if_pos (by omega)]
  | succ fuel ih =>
    intro tmp hlen hpos
    by_cases hle : tmp.length ≤ target
    · exact ⟨tmp, by unfold shrinkAux; rw [if_pos hle], by omega⟩
    · have h2 : 2 ≤ tmp.length := by omega
      have hgl : gapList tmp ≠ [] := by
        have hg := gapList_length tmp
        intro hnil
        rw [hnil] at hg
        simp at hg
        omega
      obtain ⟨i, q, hm⟩ := minWithIdx_all_val _ hgl (gapList_all_val tmp hpos)
      have hi : i < tmp.length - 1 := by
        have := minWithIdx_lt_length _ _ _ hm
        rwa [gapList_length] at this
      have herase : (tmp.eraseIdx i).length = tmp.length - 1 := by
        rw [List.length_eraseIdx]
        simp [show i < tmp.length by omega]
      obtain ⟨t, ht, htl⟩ := ih (tmp.eraseIdx i) (by omega)
        (fun x hx => hpos x ((List.eraseIdx_sublist tmp i).subset hx))
      refine ⟨t, ?_, by rw [htl, herase]; omega⟩
      unfold shrinkAux
      rw [if_neg hle]
      simp only [hm]
      split <;> exact ht

lemma shrinkAux_subset (target : Nat) :
    ∀ (fuel : Nat) (tmp t : List RMIStatistics),
      shrinkAux target fuel tmp = some t → t ⊆ tmp := by
  intro fuel
  induction fuel with
  | zero =>
    intro tmp t h
    unfold shrinkAux at h
    split_ifs at h
    cases h
    exact fun x hx => hx
  | succ fuel ih =>
    intro tmp t h
    unfold shrinkAux at h
    split_ifs at h with hle
    · cases h
      exact fun x hx => hx
    · cases hm : minWithIdx (gapList tmp) with
      | none => rw [hm] at h; simp at h
      | some p =>
        obtain ⟨i, v⟩ := p
        rw [hm] at h
        simp only [] at h
        split at h <;>
          exact fun x hx => (List.eraseIdx_sublist tmp i).subset (ih _ _ h hx)

/-- Every non-empty list of statistics has an element of minimal size. -/
lemma exists_size_min :
    ∀ (F : List RMIStatistics), F ≠ [] →
      ∃ e, e ∈ F ∧ ∀ f ∈ F, e.size ≤ f.size := by
  intro F
  induction F with
  | nil => intro h; exact absurd rfl h
  | cons x xs ih =>
    intro _
    by_cases hxs : xs = []
    · subst hxs
      exact ⟨x, by simp, by simp⟩
    · obtain ⟨e, he, hmin⟩ := ih hxs
      by_cases hle : x.size ≤ e.size
      · refine ⟨x, by simp, ?_⟩
        intro f hf
        rcases List.mem_cons.mp hf with rfl | hf'
        · exact le_refl _
        · exact le_trans hle (hmin f hf')
      · refine ⟨e, List.mem_cons_of_mem x he, ?_⟩
        intro f hf
        rcases List.mem_cons.mp hf with rfl | hf'
        · omega
        · exact hmin f hf'

/-- Full behaviour of narrow_front for a legal desired size on entries
of positive size (zero sizes can reach the NaN panic inside min_by): it
returns, the result has at most desired_size entries drawn from the
input, it contains a minimal-size element of the input, and in the
narrowing case that element is at the head. -/
lemma narrow_front_spec_all (F : List RMIStatistics) (k : Nat) (hk : 2 ≤ k)
    (hpos : ∀ f ∈ F, 0 < f.size) :
    ∃ l, narrow_front F k = some l ∧ l.length ≤ k ∧ (∀ x ∈ l, x ∈ F) ∧
      (F ≠ [] → ∃ e, e ∈ l ∧ e ∈ F ∧ ∀ f ∈ F, e.size ≤ f.size) ∧
      (k < F.length → ∃ e, l.head? = some e ∧ e ∈ F ∧ ∀ f ∈ F, e.size ≤ f.size) := by
  unfold narrow_front
  rw [if_neg (by omega : ¬ k < 2)]
  by_cases hlen : F.length ≤ k
  · rw [if_pos hlen]
    refine ⟨F, rfl, hlen, fun x hx => hx, fun hne => ?_, fun hcon => absurd hcon (by omega)⟩
    obtain ⟨e, he, hmin⟩ := exists_size_min F hne
    exact ⟨e, he, he, hmin⟩
  · rw [if_neg hlen]
    have hperm : List.Perm (List.insertionSort sizeLe F) F := List.perm_insertionSort _ _
    have hsorted := List.sorted_insertionSort sizeLe F
    cases hs : List.insertionSort sizeLe F with
    | nil =>
      rw [hs] at hperm
      have := hperm.length_eq
      simp at this
      omega
    | cons b rest =>
      rw [hs] at hperm hsorted
      obtain ⟨hble, _⟩ := List.sorted_cons.mp hsorted
      have hrestlen : rest.length = F.length - 1 := by
        have := hperm.length_eq
        simp at this
        omega
      obtain ⟨t, ht, htl⟩ := shrinkAux_some (k - 1) (by omega) rest.length rest (le_refl _)
        (fun x hx => hpos x (hperm.subset (List.mem_cons_of_mem b hx)))
      have hbF : b ∈ F := hperm.subset (List.mem_cons_self b rest)
      have hmin : ∀ f ∈ F, b.size ≤ f.size := by
        intro f hf
        have hf' : f ∈ b :: rest := hperm.mem_iff.mpr hf
        rcases List.mem_cons.mp hf' with rfl | hfr
        · exact le_refl _
        · exact hble f hfr
      refine ⟨b :: t, ?_, ?_, ?_, fun _ => ⟨b, List.mem_cons_self b t, hbF, hmin⟩,
        fun _ => ⟨b, rfl, hbF, hmin⟩⟩
      · show Option.map (fun t => b :: t) (shrinkAux (k - 1) rest.length rest) = some (b :: t)
        rw [ht]
        rfl
      · simp only [List.length_cons]
        omega
      · intro x hx
        rcases List.mem_cons.mp hx with rfl | hxt
        · exact hbF
        · exact hperm.subset
            (List.mem_cons_of_mem b (shrinkAux_subset _ _ _ _ ht hxt))

/-- C3 counterexample: the claim promises a return for every input list,
but at five entries of which three have size 0 and desired size 2 the
shrinking loop's first gap is 0/0 = NaN, min_by's partial_cmp unwrap
panics, and narrow_front does not return at all. -/
theorem c3_counterexample : narrow_front zeroSizeEntries 2 = none := by
  decide

/-- C3 (amended): for k at least 2 and entries of positive size,
narrow_front returns, with at most k entries; the result contains a
minimal-size element of the input (input non-empty), and in the
narrowing case that element is at the head. -/
theorem c3_narrow_front_bound (F : List RMIStatistics) (k : Nat) (hk : 2 ≤ k)
    (hpos : ∀ f ∈ F, 0 < f.size) :
    ∃ l, narrow_front F k = some l ∧ l.length ≤ k ∧
      (F ≠ [] → ∃ e, e ∈ l ∧ e ∈ F ∧ ∀ f ∈ F, e.size ≤ f.size) ∧
      (k < F.length → ∃ e, l.head? = some e ∧ e ∈ F ∧ ∀ f ∈ F, e.size ≤ f.size) := by
  obtain ⟨l, h1, h2, _, h4, h5⟩ := narrow_front_spec_all F k hk hpos
  exact ⟨l, h1, h2, h4, h5⟩

/-- Witness for C3 at Scenario F with desired size 3. -/
theorem c3_witness :
    (2 ≤ 3) ∧ (∀ f ∈ scenarioF, 0 < f.size) ∧
      ∃ l, narrow_front scenarioF 3 = some l ∧ l.length ≤ 3 ∧
        (scenarioF ≠ [] →
          ∃ e, e ∈ l ∧ e ∈ scenarioF ∧ ∀ f ∈ scenarioF, e.size ≤ f.size) ∧
        (3 < scenarioF.length →
          ∃ e, l.head? = some e ∧ e ∈ scenarioF ∧ ∀ f ∈ scenarioF, e.size ≤ f.size) :=
  ⟨by decide, by decide, c3_narrow_front_bound scenarioF 3 (by decide) (by decide)⟩

/-- C2 (evidence for the code bug): at this input the minimal-ratio
adjacent pair after setting aside the size-10 anchor is (size 20, error
5) and (size 40, error 7); the claim says the less accurate size-40
entry is removed, but the code removes the index smallest_gap.0 in both
branches, so the size-20 entry disappears and the size-40 entry is
kept. -/
theorem c2_code_removes_lower_index :
    narrow_front
        [⟨"a", 0, 9, 0, 10⟩, ⟨"b", 0, 5, 0, 20⟩, ⟨"c", 0, 7, 0, 40⟩,
         ⟨"d", 0, 1, 0, 160⟩] 3
      = some [⟨"a", 0, 9, 0, 10⟩, ⟨"c", 0, 7, 0, 40⟩, ⟨"d", 0, 1, 0, 160⟩] := by
  decide

/-- C10: with restrict below 2 the assert at the head of narrow_front
fires, so find_pareto_efficient_configs panics for every measurement
outcome, and narrow_front panics on every input list, even one already
within the restriction. -/
theorem c10_restrict_lt_two_panics (measure : String × Nat → RMIStatistics)
    (restrict : Nat) (h : restrict < 2) :
    find_pareto_efficient_configs measure restrict = none ∧
      ∀ F, narrow_front F restrict = none := by
  have hn : ∀ F, narrow_front F restrict = none := by
    intro F
    unfold narrow_front
    rw [if_pos h]

  refine ⟨?_, hn⟩
  unfold find_pareto_efficient_configs
  dsimp only
  rw [hn]
  rfl

/-- Witness for C10 at restrict = 1 with a constant measurement. -/
theorem c10_witness :
    (1 < 2) ∧
      (find_pareto_efficient_configs (fun _ => default) 1 = none ∧
        ∀ F, narrow_front F 1 = none) :=
  ⟨by decide, c10_restrict_lt_two_panics (fun _ => default) 1 (by decide)⟩

/-- C1 counterexample: the code's final front (computed over the phase-2
results alone) differs from the spec's final front over P2 = phase-1
results with phase-2 appended. Under exMeasure the code returns the 15
phase-2 entries, while the P2 front is the single phase-1 optimum. -/
theorem c1_counterexample :
    find_pareto_efficient_configs exMeasure 16 ≠ final_selection_over_P2 exMeasure 16 := by
  decide

/-- C1 (amended): find_pareto_efficient_configs computes the Pareto
front over the phase-2 results alone, narrows it to at most restrict
entries and returns it sorted by average_log2_error ascending. -/
theorem c1_amended_final_selection (measure : String × Nat → RMIStatistics)
    (restrict : Nat) (h : 2 ≤ restrict)
    (hpos : ∀ c, 0 < (measure c).size) :
    ∃ l, find_pareto_efficient_configs measure restrict = some l ∧
      l.length ≤ restrict ∧ List.Sorted avgLe l ∧
      ∀ x ∈ l,
        x ∈ pareto_front
          ((second_phase_configs (first_phase_configs.map measure)).map measure) := by
  obtain ⟨nf, hnf, hlen, hsub, -, -⟩ :=
    narrow_front_spec_all
      (pareto_front ((second_phase_configs (first_phase_configs.map measure)).map measure))
      restrict h
      (by
        intro x hx
        obtain ⟨c, -, rfl⟩ := List.mem_map.mp (List.mem_of_mem_filter hx)
        exact hpos c)
  refine ⟨sort_by_avg nf, ?_, ?_, ?_, ?_⟩
  · unfold find_pareto_efficient_configs
    dsimp only
    rw [hnf]
    rfl
  · have : (sort_by_avg nf).length = nf.length :=
      (List.perm_insertionSort avgLe nf).length_eq
    omega
  · exact List.sorted_insertionSort avgLe nf
  · intro x hx
    exact hsub x ((List.perm_insertionSort avgLe nf).subset hx)

/-- Witness for C1's amended statement at restrict = 2 with a constant
size-1 measurement. -/
theorem c1_amended_witness :
    (2 ≤ 2) ∧ (∀ c : String × Nat, 0 < ((fun _ => constStat) c).size) ∧
      ∃ l, find_pareto_efficient_configs (fun _ => constStat) 2 = some l ∧
        l.length ≤ 2 ∧ List.Sorted avgLe l ∧
        ∀ x ∈ l,
          x ∈ pareto_front
            ((second_phase_configs
              (first_phase_configs.map (fun _ => constStat))).map (fun _ => constStat)) :=
  ⟨by decide, fun _ => Nat.one_pos,
    c1_amended_final_selection (fun _ => constStat) 2 (by decide) (fun _ => Nat.one_pos)⟩

/-- C5: pareto_front is idempotent. -/
theorem c5_pareto_front_idempotent (S : List RMIStatistics) :
    pareto_front (pareto_front S) = pareto_front S := by
  apply List.filter_eq_self.mpr
  intro r hr
  have hsub : pareto_front S ⊆ S := fun x hx => List.mem_of_mem_filter hx
  have hr' := (mem_pareto_front S r).mp hr
  simp only [Bool.not_eq_true', List.any_eq_false]
  intro v hv hdom
  exact hr'.2 v (hsub hv) ((dominated_by_iff r v).mp hdom)

/-- C6: the default predict_to_int equals
floor(max(0, predict_to_float(x))) converted to an unsigned integer. -/
theorem c6_predict_to_int_floor_max (predict_to_float : Rat → Rat) (x : Rat) :
    predict_to_int predict_to_float x = (⌊max 0 (predict_to_float x)⌋).toNat := by
  unfold predict_to_int asU64
  rcases le_total (predict_to_float x) 0 with h | h
  · have hf : ⌊predict_to_float x⌋ ≤ 0 := Int.floor_nonpos h
    rw [max_eq_left h, max_eq_left (by exact_mod_cast hf : ((⌊predict_to_float x⌋ : Int) : Rat) ≤ 0)]
  · have hf : (0 : Int) ≤ ⌊predict_to_float x⌋ := Int.floor_nonneg.mpr h
    rw [max_eq_right h, max_eq_right (by exact_mod_cast hf : (0 : Rat) ≤ ((⌊predict_to_float x⌋ : Int) : Rat))]
    rw [Int.floor_intCast]

/-- C8: at every in-range index the scaled view returns (k_i, s * p_i);
the scale of a fresh wrapper is 1.0, and with scale 1.0 the view's get
agrees with the underlying data's get. -/
theorem c8_wrapper_get_scales (md : ModelData) (s : Rat) (i : Nat) (hi : i < md.len) :
    (∃ k p, md.keyAt i = some k ∧ md.posAt i = some p ∧
      ((ModelDataWrapper.new md).set_scale s).get i = some (k, s * p))
    ∧ (ModelDataWrapper.new md).scaling_factor = 1
    ∧ (ModelDataWrapper.new md).get i = md.get i := by
  refine ⟨?_, rfl, ?_⟩
  · cases md with
    | IntKeyToIntPos data =>
      simp only [ModelData.len] at hi
      have hp : data[i]? = some data[i] := List.getElem?_eq_getElem hi
      exact ⟨(data[i].1 : Rat), (data[i].2 : Rat),
        by simp [ModelData.keyAt, hp],
        by simp [ModelData.posAt, hp],
        by simp [ModelDataWrapper.get, ModelDataWrapper.set_scale, ModelDataWrapper.new,
          ModelData.get, hp, mul_comm]⟩
    | FloatKeyToIntPos data =>
      simp only [ModelData.len] at hi
      have hp : data[i]? = some data[i] := List.getElem?_eq_getElem hi
      exact ⟨data[i].1, (data[i].2 : Rat),
        by simp [ModelData.keyAt, hp],
        by simp [ModelData.posAt, hp],
        by simp [ModelDataWrapper.get, ModelDataWrapper.set_scale, ModelDataWrapper.new,
          ModelData.get, hp, mul_comm]⟩
    | IntKeyToFloatPos data =>
      simp only [ModelData.len] at hi
      have hp : data[i]? = some data[i] := List.getElem?_eq_getElem hi
      exact ⟨(data[i].1 : Rat), data[i].2,
        by simp [ModelData.keyAt, hp],
        by simp [ModelData.posAt, hp],
        by simp [ModelDataWrapper.get, ModelDataWrapper.set_scale, ModelDataWrapper.new,
          ModelData.get, hp, mul_comm]⟩
    | FloatKeyToFloatPos data =>
      simp only [ModelData.len] at hi
      have hp : data[i]? = some data[i] := List.getElem?_eq_getElem hi
      exact ⟨data[i].1, data[i].2,
        by simp [ModelData.keyAt, hp],
        by simp [ModelData.posAt, hp],
        by simp [ModelDataWrapper.get, ModelDataWrapper.set_scale, ModelDataWrapper.new,
          ModelData.get, hp, mul_comm]⟩
  · unfold ModelDataWrapper.get ModelDataWrapper.new
    cases h : md.get i with
    | none => rfl
    | some p => simp

/-- Witness for C8 at a one-entry IntInt data set with scale 3. -/
theorem c8_witness :
    (0 < (ModelData.IntKeyToIntPos [(1, 2)]).len) ∧
      ((∃ k p, (ModelData.IntKeyToIntPos [(1, 2)]).keyAt 0 = some k ∧
          (ModelData.IntKeyToIntPos [(1, 2)]).posAt 0 = some p ∧
          ((ModelDataWrapper.new (ModelData.IntKeyToIntPos [(1, 2)])).set_scale 3).get 0
            = some (k, 3 * p))
        ∧ (ModelDataWrapper.new (ModelData.IntKeyToIntPos [(1, 2)])).scaling_factor = 1
        ∧ (ModelDataWrapper.new (ModelData.IntKeyToIntPos [(1, 2)])).get 0
            = (ModelData.IntKeyToIntPos [(1, 2)]).get 0) :=
  ⟨by decide, c8_wrapper_get_scales (ModelData.IntKeyToIntPos [(1, 2)]) 3 0 (by decide)⟩

/-- C9: as_int_int succeeds exactly on the IntInt variant, returning the
underlying slice, and panics on the three float-bearing variants; bound
succeeds exactly when start < stop and stop ≤ len. -/
theorem c9_as_int_int_and_bound :
    (∀ d, ModelData.as_int_int (ModelData.IntKeyToIntPos d) = some d)
    ∧ (∀ d : List (Rat × Rat), ModelData.as_int_int (ModelData.FloatKeyToFloatPos d) = none)
    ∧ (∀ d : List (Rat × Nat), ModelData.as_int_int (ModelData.FloatKeyToIntPos d) = none)
    ∧ (∀ d : List (Nat × Rat), ModelData.as_int_int (ModelData.IntKeyToFloatPos d) = none)
    ∧ (∀ md : ModelData,
        (ModelData.as_int_int md).isSome ↔ ∃ d, md = ModelData.IntKeyToIntPos d)
    ∧ (∀ (it : ModelDataIIIterator) (start stop : Nat),
        (it.bound start stop).isSome ↔ start < stop ∧ stop ≤ it.data.len) := by
  refine ⟨fun d => rfl, fun d => rfl, fun d => rfl, fun d => rfl, ?_, ?_⟩
  · intro md
    cases md with
    | IntKeyToIntPos data => simp [ModelData.as_int_int]
    | FloatKeyToIntPos data => simp [ModelData.as_int_int]
    | IntKeyToFloatPos data => simp [ModelData.as_int_int]
    | FloatKeyToFloatPos data => simp [ModelData.as_int_int]
  · intro it s t
    unfold ModelDataIIIterator.bound
    split_ifs with h1 h2
    · simp [h1, h2]
    · simp [h1, h2]
    · simp [h1]

lemma leBytes_length (w : Nat) : ∀ v, (leBytes w v).length = w := by
  induction w with
  | zero => intro v; rfl
  | succ w ih => intro v; simp [leBytes, ih]

lemma leBytes_lt (w : Nat) : ∀ v, ∀ b ∈ leBytes w v, b < 256 := by
  induction w with
  | zero => intro v b hb; simp [leBytes] at hb
  | succ w ih =>
    intro v b hb
    simp only [leBytes, List.mem_cons] at hb
    rcases hb with rfl | hb
    · exact Nat.mod_lt _ (by omega)
    · exact ih _ b hb

lemma fromLeBytes_leBytes (w : Nat) : ∀ v, v < 256 ^ w → fromLeBytes (leBytes w v) = v := by
  induction w with
  | zero =>
    intro v hv
    simp only [pow_zero, Nat.lt_one_iff] at hv
    simp [hv, leBytes, fromLeBytes]
  | succ w ih =>
    intro v hv
    have hdiv : v / 256 < 256 ^ w := by
      rw [Nat.div_lt_iff_lt_mul (by omega : 0 < 256)]
      calc v < 256 ^ (w + 1) := hv
        _ = 256 ^ w * 256 := by rw [pow_succ]
    simp only [leBytes, fromLeBytes]
    rw [ih _ hdiv]
    omega

lemma join_map_leBytes_length (w : Nat) :
    ∀ a : List Nat, ((a.map (leBytes w)).flatten).length = w * a.length := by
  intro a
  induction a with
  | nil => simp
  | cons v vs ih =>
    simp only [List.map_cons, List.flatten_cons, List.length_append, ih, leBytes_length]
    rw [List.length_cons, Nat.mul_succ]
    omega

lemma decodeChunksAux_join (w : Nat) (hw : 1 ≤ w) :
    ∀ (a : List Nat) (fuel : Nat), a.length ≤ fuel →
      decodeChunksAux w fuel ((a.map (leBytes w)).flatten)
        = a.map (fun v => fromLeBytes (leBytes w v)) := by
  intro a
  induction a with
  | nil =>
    intro fuel h
    cases fuel <;> simp [decodeChunksAux]
  | cons v vs ih =>
    intro fuel h
    obtain ⟨fuel', rfl⟩ : ∃ f, fuel = f + 1 :=
      ⟨fuel - 1, by simp only [List.length_cons] at h; omega⟩
    obtain ⟨w', rfl⟩ : ∃ u, w = u + 1 := ⟨w - 1, by omega⟩
    have hlen : (leBytes w' (v / 256)).length = w' := leBytes_length _ _
    have hbytes : ((v :: vs).map (leBytes (w' + 1))).flatten
        = v % 256 :: (leBytes w' (v / 256) ++ ((vs.map (leBytes (w' + 1))).flatten)) := by
      simp [leBytes]
    rw [hbytes]
    simp only [decodeChunksAux, Nat.add_sub_cancel]
    have htake : (leBytes w' (v / 256) ++ ((vs.map (leBytes (w' + 1))).flatten)).take w'
        = leBytes w' (v / 256) := by
      rw [List.take_append_of_le_length (by omega)]
      rw [List.take_of_length_le (by omega)]
    have hdrop : (leBytes w' (v / 256) ++ ((vs.map (leBytes (w' + 1))).flatten)).drop w'
        = (vs.map (leBytes (w' + 1))).flatten := by
      rw [List.drop_append_of_le_length (by omega)]
      rw [List.drop_of_length_le (by omega)]
      simp
    rw [htake, hdrop, ih fuel' (by simp only [List.length_cons] at h; omega)]
    simp [leBytes, fromLeBytes]

lemma decodeChunks_join (w : Nat) (hw : 1 ≤ w) (a : List Nat)
    (ha : ∀ x ∈ a, x < 256 ^ w) :
    decodeChunks w ((a.map (leBytes w)).flatten) = a := by
  unfold decodeChunks
  rw [decodeChunksAux_join w hw a _
    (by rw [join_map_leBytes_length]; calc a.length = 1 * a.length := (one_mul _).symm
          _ ≤ w * a.length := Nat.mul_le_mul_right _ hw)]
  calc a.map (fun v => fromLeBytes (leBytes w v)) = a.map id := by
        apply List.map_congr_left
        intro x hx
        exact fromLeBytes_leBytes w x (ha x hx)
    _ = a := List.map_id a

/-- C7: write_to emits exactly size bytes (each an actual byte), with
element widths 8/8/2/8/4/8 per kind, and reading the stream back by
those widths reproduces the original values exactly, provided each value
fits its width. -/
theorem c7_param_blob_roundtrip (p : ModelParam)
    (hv : ∀ x ∈ p.values, x < 256 ^ p.elemWidth) :
    p.write_to.length = p.size ∧ (∀ b ∈ p.write_to, b < 256) ∧
      decodeChunks p.elemWidth p.write_to = p.values := by
  have harr : ∀ (w : Nat), 1 ≤ w → ∀ a : List Nat, (∀ x ∈ a, x < 256 ^ w) →
      ((a.map (leBytes w)).flatten).length = w * a.length ∧
        (∀ b ∈ (a.map (leBytes w)).flatten, b < 256) ∧
        decodeChunks w ((a.map (leBytes w)).flatten) = a := by
    intro w hw a ha
    refine ⟨join_map_leBytes_length w a, ?_, decodeChunks_join w hw a ha⟩
    intro b hb
    obtain ⟨l, hl, hbl⟩ := List.mem_flatten.mp hb
    obtain ⟨x, -, rfl⟩ := List.mem_map.mp hl
    exact leBytes_lt w x b hbl
  have hscalar : ∀ v : Nat, v < 256 ^ 8 →
      (leBytes 8 v).length = 8 ∧ (∀ b ∈ leBytes 8 v, b < 256) ∧
        decodeChunks 8 (leBytes 8 v) = [v] := by
    intro v hv8
    have := harr 8 (by omega) [v] (by simpa using hv8)
    simpa using this
  cases p with
  | Int v =>
    exact hscalar v (hv v (by simp [ModelParam.values]))
  | Float bits =>
    exact hscalar bits (hv bits (by simp [ModelParam.values]))
  | ShortArray a =>
    have := harr 2 (by omega) a hv
    exact ⟨this.1, this.2.1, this.2.2⟩
  | IntArray a =>
    have := harr 8 (by omega) a hv
    exact ⟨this.1, this.2.1, this.2.2⟩
  | Int32Array a =>
    have := harr 4 (by omega) a hv
    exact ⟨this.1, this.2.1, this.2.2⟩
  | FloatArray a =>
    have := harr 8 (by omega) a hv
    exact ⟨this.1, this.2.1, this.2.2⟩

/-- Witness for C7 at a two-element u16 array parameter. -/
theorem c7_witness :
    (∀ x ∈ (ModelParam.ShortArray [1, 65535]).values,
        x < 256 ^ (ModelParam.ShortArray [1, 65535]).elemWidth) ∧
      ((ModelParam.ShortArray [1, 65535]).write_to.length
          = (ModelParam.ShortArray [1, 65535]).size ∧
        (∀ b ∈ (ModelParam.ShortArray [1, 65535]).write_to, b < 256) ∧
        decodeChunks (ModelParam.ShortArray [1, 65535]).elemWidth
            (ModelParam.ShortArray [1, 65535]).write_to
          = (ModelParam.ShortArray [1, 65535]).values) :=
  ⟨by decide, c7_param_blob_roundtrip (ModelParam.ShortArray [1, 65535]) (by decide)⟩

end RMI

